import Mathlib

/-!
Shallow embedding of the Term-Algebra library (src/Term.js): first-order
terms (variables, constants, function applications), structural equality,
rendering, and substitutions with apply and compose.

Conventions of the embedding:
- A JS `Variable` object is exactly its `name` string, so substitution keys
  are represented by `String`. `cloneTerm` on a variable rebuilds a variable
  with the same name, which is the identity on this representation.
- JS dynamic type checks (`typeof name !== "string"`, `instanceof` checks,
  `Array.isArray`) are absorbed by the Lean types of the embedding: inputs
  that would fail those checks are not representable.  Checks that restrict
  representable values (arity count mismatch, duplicate bindings) are kept
  and modelled with `Except`.
- JS numbers passing `Number.isInteger` are modelled as `Int`.
-/

/-- Embedding of the `Func` class fields: a function symbol carries a
`symbol_name` string and an integer `arity`.  The constructor checks only
`typeof name === "string"` and `Number.isInteger(arity)`; both are absorbed
by the field types (note: no non-negativity check on `arity`). -/
structure Func where
  symbol_name : String
  arity : Int
deriving DecidableEq

/-- Embedding of the three Term shapes of the source: `Variable(name)`,
`Constant(name)`, and `FuncTerm(func, args)` (a function application). -/
inductive Term where
  | var (name : String)
  | const (name : String)
  | app (func : Func) (args : List Term)

mutual
/-- Structural Boolean equality on the `Term` representation itself (full
equality of the algebraic datatype).  This is infrastructure for
decidability of propositions about concrete terms; it is NOT the library's
`isEqual` (which is embedded separately below and differs from it). -/
def beqTerm : Term → Term → Bool
  | .var a, .var b => a == b
  | .const a, .const b => a == b
  | .app f as, .app g bs => f == g && beqTermList as bs
  | _, _ => false
/-- Pointwise `beqTerm` on lists of terms (same length required). -/
def beqTermList : List Term → List Term → Bool
  | [], [] => true
  | a :: as, b :: bs => beqTerm a b && beqTermList as bs
  | _, _ => false
end

mutual
theorem beqTerm_iff : ∀ a b, beqTerm a b = true ↔ a = b
  | .var a, .var b => by simp [beqTerm]
  | .var _, .const _ => by simp [beqTerm]
  | .var _, .app _ _ => by simp [beqTerm]
  | .const _, .var _ => by simp [beqTerm]
  | .const _, .const _ => by simp [beqTerm]
  | .const _, .app _ _ => by simp [beqTerm]
  | .app _ _, .var _ => by simp [beqTerm]
  | .app _ _, .const _ => by simp [beqTerm]
  | .app f as, .app g bs => by
    simp [beqTerm, beqTermList_iff as bs]
theorem beqTermList_iff : ∀ as bs, beqTermList as bs = true ↔ as = bs
  | [], [] => by simp [beqTermList]
  | [], _ :: _ => by simp [beqTermList]
  | _ :: _, [] => by simp [beqTermList]
  | a :: as, b :: bs => by
    simp [beqTermList, beqTerm_iff a b, beqTermList_iff as bs]
end

instance : DecidableEq Term := fun a b => decidable_of_iff _ (beqTerm_iff a b)

/-- Embedding of `Variable.prototype.isEqual`: true iff the argument is a
`Variable` (`instanceof Variable`) with the same name. -/
def varIsEqual (n : String) : Term → Bool
  | .var m => n == m
  | _ => false

/-- Embedding of `Constant.prototype.isEqual`: true iff the argument is a
`Constant` with the same name. -/
def constIsEqual (n : String) : Term → Bool
  | .const m => n == m
  | _ => false

/-- Embedding of `Func.prototype.isEqual`: symbols compare by
`symbol_name` and `arity`.  (In the source this method is never called by
any other function of the library.) -/
def funcIsEqual (f g : Func) : Bool :=
  f.symbol_name == g.symbol_name && f.arity == g.arity

mutual
/-- Embedding of the dynamic dispatch `t1.isEqual(t2)` of the source.
`FuncTerm.prototype.isEqual` is
`t instanceof FuncTerm && zip(this.args, t.args).every(x => x[0].isEqual(x[1]))`:
it never compares the function symbols and never compares argument counts
(`zip(a, b) = a.map((v, i) => [v, b[i]])` truncates to `a`'s length, and a
pairing against `undefined` yields `false`). -/
def isEqualTerm : Term → Term → Bool
  | .var n, t => varIsEqual n t
  | .const n, t => constIsEqual n t
  | .app _ args, t =>
    match t with
    | .app _ args2 => zipEveryEqual args args2
    | _ => false
/-- Embedding of `zip(a, b).every(x => x[0].isEqual(x[1]))`: if `a` is
longer than `b` the missing entries of `b` are `undefined` and `isEqual`
against `undefined` is `false`; if `b` is longer its extra entries are
ignored; an empty `a` yields `true` regardless of `b`. -/
def zipEveryEqual : List Term → List Term → Bool
  | [], _ => true
  | _ :: _, [] => false
  | x :: xs, y :: ys => isEqualTerm x y && zipEveryEqual xs ys
end

mutual
/-- Embedding of `cloneTerm`: rebuilds the term bottom-up (variables and
constants by name, applications by rebuilding a `Func` with the same
`symbol_name` and `arity` and cloning each argument). -/
def cloneTerm : Term → Term
  | .var n => .var n
  | .const n => .const n
  | .app f args => .app (Func.mk f.symbol_name f.arity) (cloneTermList args)
/-- Embedding of `t.args.map(ti => cloneTerm(ti))`. -/
def cloneTermList : List Term → List Term
  | [] => []
  | t :: ts => cloneTerm t :: cloneTermList ts
end

mutual
theorem cloneTerm_id : ∀ t, cloneTerm t = t
  | .var _ => rfl
  | .const _ => rfl
  | .app f args => by
    rw [cloneTerm, cloneTermList_id args]
theorem cloneTermList_id : ∀ l, cloneTermList l = l
  | [] => rfl
  | t :: ts => by
    rw [cloneTermList, cloneTerm_id t, cloneTermList_id ts]
end

mutual
/-- Embedding of `toString` on terms: a variable or constant renders as its
name; a `FuncTerm` with `func.arity === 0` renders as the symbol name
alone; otherwise as `name(arg1,arg2,...)` with the arguments joined by
`","` (no spaces). -/
def termToString : Term → String
  | .var n => n
  | .const n => n
  | .app f args =>
    if f.arity == 0 then f.symbol_name
    else f.symbol_name ++ "(" ++ joinArgs args ++ ")"
/-- Embedding of `this.args.join(",")` where each argument contributes its
own `toString`. -/
def joinArgs : List Term → String
  | [] => ""
  | [t] => termToString t
  | t :: ts => termToString t ++ "," ++ joinArgs ts
end

/-- Embedding of the `Substitution` state: `this.subs` is an ordered list
of `[Variable, Term]` pairs, the variable represented by its name. -/
abbrev Subst := List (String × Term)

/-- Domain of a substitution list: its keys in order. -/
def keysOf (s : Subst) : List String := s.map Prod.fst

/-- Embedding of `Substitution.toString`: each pair renders as
`v -> t`, the pairs are joined by `", "`, and the whole is wrapped in
braces. -/
def substToString (s : Subst) : String :=
  "\x7b" ++ String.intercalate ", " (s.map (fun vt => vt.1 ++ " -> " ++ termToString vt.2)) ++ "\x7d"

/-- Embedding of `Substitution.prototype.add`: errors when some existing
pair's variable `isEqual` the new variable, otherwise pushes the pair at
the end.  The `instanceof Variable` / `isTerm` checks are absorbed by the
types. -/
def addSub (s : Subst) (v : String) (t : Term) : Except String Subst :=
  if s.any (fun vt => vt.1 == v) then .error "Variable already exists in substitution"
  else .ok (s ++ [(v, t)])

/-- Embedding of `Substitution.prototype.contains`. -/
def containsSub (s : Subst) (v : String) : Bool :=
  s.any (fun vt => vt.1 == v)

/-- Index of the last pair whose variable `isEqual` the argument, as
computed by the scan in `Substitution.prototype.remove` (`indexToRemove`
is overwritten at every match, so the final value is the last match). -/
def lastMatchIndex : Subst → String → Option Nat
  | [], _ => none
  | p :: rest, v =>
    match lastMatchIndex rest v with
    | some i => some (i + 1)
    | none => if p.1 == v then some 0 else none

/-- Embedding of `Substitution.prototype.remove`: splice out the last
matching index if any, otherwise leave the list unchanged. -/
def removeSub (s : Subst) (v : String) : Subst :=
  match lastMatchIndex s v with
  | some i => s.eraseIdx i
  | none => s

theorem removeSub_length_le (s : Subst) (v : String) : (removeSub s v).length ≤ s.length := by
  unfold removeSub
  cases lastMatchIndex s v with
  | none => exact Nat.le_refl _
  | some i => exact (List.eraseIdx_sublist s i).length_le

theorem removeSub_sublist (s : Subst) (v : String) : (removeSub s v).Sublist s := by
  unfold removeSub
  cases lastMatchIndex s v with
  | none => exact List.Sublist.refl s
  | some i => exact List.eraseIdx_sublist s i

mutual
/-- Embedding of `Substitution.prototype.apply`: with no bindings it
returns a clone of the term; a `FuncTerm` is rebuilt with a fresh `Func`
of the same name and arity and each argument replaced recursively; a
`Variable` is looked up against the bindings in order, the FIRST pair
whose variable `isEqual` it supplying a clone of the bound term; anything
else (a constant, or an unbound variable) is cloned unchanged.  The
source performs the emptiness shortcut before inspecting the term shape;
here the shape is matched first and each branch keeps the shortcut, which
is the same function. -/
def applySub (s : Subst) : Term → Term
  | .var n =>
    if s.length == 0 then cloneTerm (.var n)
    else
      match s.find? (fun vt => vt.1 == n) with
      | some vt => cloneTerm vt.2
      | none => cloneTerm (.var n)
  | .const c =>
    if s.length == 0 then cloneTerm (.const c) else cloneTerm (.const c)
  | .app f args =>
    if s.length == 0 then cloneTerm (.app f args)
    else .app (Func.mk f.symbol_name f.arity) (applySubList s args)
/-- Embedding of `t.args.map(ti => this.apply(ti))`. -/
def applySubList (s : Subst) : List Term → List Term
  | [] => []
  | t :: ts => applySub s t :: applySubList s ts
end

/-- Embedding of the `FuncTerm` constructor.  The source checks only that
`func instanceof Func` and that `args` is an array whose elements satisfy
`isTerm`; both checks are absorbed by the argument types.  There is NO
check relating `args.length` to `func.arity`, so this constructor never
fails on representable inputs. -/
def funcTermCtor (func : Func) (args : List Term) : Except String Term :=
  .ok (.app func args)

/-- Embedding of the `Func` constructor result.  The source checks only
`typeof name === "string"` and `Number.isInteger(arity)`; both are
absorbed by the `String` and `Int` argument types, so construction never
fails on representable inputs (in particular negative integer arities are
accepted). -/
def funcCtor (name : String) (arity : Int) : Except String Func :=
  .ok (Func.mk name arity)

/-- Embedding of `Func.prototype._call` (the callable-symbol sugar
`f(...args)`): errors when `args.length !== this.arity`, otherwise builds
`new FuncTerm(new Func(this.symbol_name, this.arity), args)`. -/
def funcCall (f : Func) (args : List Term) : Except String Term :=
  if (args.length : Int) ≠ f.arity then
    .error ("Wrong number of arguments, exected " ++ toString f.arity ++ " received " ++ toString args.length)
  else
    .ok (.app (Func.mk f.symbol_name f.arity) args)

/-- Shared shape of the three `add`-accumulating loops inside
`cloneSubstitution` and `compose`: walk the entries of a list in order and
`add` each key together with a transformed term to the accumulator,
propagating the `add` failure if a key is already present. -/
def addEntries (g : String → Term → Term) : List (String × Term) → Subst → Except String Subst
  | [], acc => .ok acc
  | p :: rest, acc =>
    match addSub acc p.1 (g p.1 p.2) with
    | .error e => .error e
    | .ok acc2 => addEntries g rest acc2

/-- Embedding of `cloneSubstitution`: a fresh substitution built by
`add(cloneTerm(v), cloneTerm(t))` for every pair in order (`cloneTerm` on
a variable preserves exactly its name). -/
def cloneSubstitution (s : Subst) : Except String Subst :=
  addEntries (fun _ t => cloneTerm t) s []

/-- Embedding of the second loop of `compose`: for every pair `[v, t]` of
the rewritten left substitution, remove `v` from the cloned right
substitution when `contains(v)` holds. -/
def domainRemove : List (String × Term) → Subst → Subst
  | [], sig => sig
  | p :: rest, sig => domainRemove rest (if containsSub sig p.1 then removeSub sig p.1 else sig)

/-- Embedding of the third loop of `compose`
(`for (const [v, t] of newSubstitution.subs) if (v.isEqual(t)) newSubstitution.remove(v)`).
A JS `for...of` iterator over an array keeps a cursor `k` and at each step
checks `k < length` against the LIVE array, yields element `k`, and
increments; the body may shrink the array via `remove`, in which case the
element sliding into position `k` is skipped.  This function replays that
semantics exactly. -/
def trivialLoop (l : Subst) (k : Nat) : Subst :=
  if h : k < l.length then
    if varIsEqual l[k].1 l[k].2 then
      trivialLoop (removeSub l l[k].1) (k + 1)
    else
      trivialLoop l (k + 1)
  else l
termination_by l.length - k
decreasing_by
  · have := removeSub_length_le l l[k].1
    omega
  · omega

/-- Embedding of `Substitution.prototype.compose`.  With an empty receiver
it returns a clone of the argument.  Otherwise: build the rewritten left
side (`add(cloneTerm(v), sigma.apply(t))` per pair), clone the argument,
drop from the clone every key contained in the rewritten left side, run
the trivial-binding removal loop over the rewritten left side, and finally
`add` every surviving pair of the clone onto it. -/
def composeSub (s1 s2 : Subst) : Except String Subst :=
  if s1.length == 0 then
    cloneSubstitution s2
  else
    match addEntries (fun _ t => applySub s2 t) s1 [] with
    | .error e => .error e
    | .ok r =>
      match cloneSubstitution s2 with
      | .error e => .error e
      | .ok s0 =>
        let s := domainRemove r s0
        let r2 := trivialLoop r 0
        addEntries (fun _ t => t) s r2

theorem keysOf_cons (p : String × Term) (s : Subst) : keysOf (p :: s) = p.1 :: keysOf s := rfl

theorem keysOf_append (s1 s2 : Subst) : keysOf (s1 ++ s2) = keysOf s1 ++ keysOf s2 := by
  simp [keysOf]

theorem containsSub_iff (s : Subst) (v : String) : containsSub s v = true ↔ v ∈ keysOf s := by
  simp [containsSub, keysOf, List.any_eq_true]

theorem lastMatchIndex_eq_none_iff (s : Subst) (v : String) :
    lastMatchIndex s v = none ↔ v ∉ keysOf s := by
  induction s with
  | nil => simp [lastMatchIndex, keysOf]
  | cons p rest ih =>
    rw [lastMatchIndex]
    cases h : lastMatchIndex rest v with
    | some i =>
      rw [h] at ih
      have hv : v ∈ keysOf rest := by
        by_contra hnot
        exact Option.noConfusion (ih.mpr hnot)
      simp [keysOf_cons, hv]
    | none =>
      rw [h] at ih
      have hv : v ∉ keysOf rest := ih.mp rfl
      by_cases he : p.1 = v
      · simp [keysOf_cons, he]
      · simp [keysOf_cons, he, hv, beq_iff_eq]
        exact fun h2 => he h2.symm

theorem mem_keysOf_of_mem {s : Subst} {p : String × Term} (h : p ∈ s) : p.1 ∈ keysOf s :=
  List.mem_map_of_mem Prod.fst h

theorem filter_ne_of_not_mem (s : Subst) (v : String) (hv : v ∉ keysOf s) :
    s.filter (fun p => !(p.1 == v)) = s := by
  rw [List.filter_eq_self]
  intro a ha
  simp only [Bool.not_eq_true', beq_eq_false_iff_ne, ne_eq]
  intro he
  exact hv (he ▸ mem_keysOf_of_mem ha)

theorem removeSub_eq_filter (s : Subst) (v : String) (hnd : (keysOf s).Nodup) :
    removeSub s v = s.filter (fun p => !(p.1 == v)) := by
  induction s with
  | nil => simp [removeSub, lastMatchIndex]
  | cons p rest ih =>
    have hnd2 := by simpa [keysOf_cons, List.nodup_cons] using hnd
    have hpn : p.1 ∉ keysOf rest := hnd2.1
    have hnd1 : (keysOf rest).Nodup := hnd2.2
    rw [removeSub, lastMatchIndex]
    cases h : lastMatchIndex rest v with
    | some i =>
      have hv : v ∈ keysOf rest := by
        by_contra hnot
        exact Option.noConfusion (h ▸ (lastMatchIndex_eq_none_iff rest v).mpr hnot)
      have hne : (p.1 == v) = false := by
        simp only [beq_eq_false_iff_ne, ne_eq]
        intro he
        exact hpn (he ▸ hv)
      have ihh : rest.eraseIdx i = rest.filter (fun q => !(q.1 == v)) := by
        have h2 := ih hnd1
        rw [removeSub, h] at h2
        exact h2
      simp [List.eraseIdx_cons_succ, List.filter_cons, hne, ihh]
    | none =>
      have hv : v ∉ keysOf rest := (lastMatchIndex_eq_none_iff rest v).mp h
      have hrest : rest.filter (fun q => !(q.1 == v)) = rest := filter_ne_of_not_mem rest v hv
      by_cases he : p.1 = v
      · simp [he, List.filter_cons, hrest]
      · have hne : (p.1 == v) = false := by simp [he]
        simp [hne, List.filter_cons, hrest]

theorem removeStep_eq_filter (sig : Subst) (v : String) (hnd : (keysOf sig).Nodup) :
    (if containsSub sig v then removeSub sig v else sig) = sig.filter (fun p => !(p.1 == v)) := by
  by_cases hc : containsSub sig v
  · rw [if_pos hc, removeSub_eq_filter sig v hnd]
  · rw [if_neg hc]
    have hv : v ∉ keysOf sig := fun hm => hc ((containsSub_iff sig v).mpr hm)
    exact (filter_ne_of_not_mem sig v hv).symm

theorem keysOf_filter_nodup (s : Subst) (q : String × Term → Bool) (hnd : (keysOf s).Nodup) :
    (keysOf (s.filter q)).Nodup :=
  ((List.filter_sublist s).map Prod.fst).nodup hnd

theorem domainRemove_eq (R : List (String × Term)) :
    ∀ (sig : Subst), (keysOf sig).Nodup →
      domainRemove R sig = sig.filter (fun p => !((keysOf R).contains p.1)) := by
  induction R with
  | nil =>
    intro sig _
    simp [domainRemove, keysOf]
  | cons r R ih =>
    intro sig hnd
    rw [domainRemove, removeStep_eq_filter sig r.1 hnd,
      ih _ (keysOf_filter_nodup sig _ hnd), List.filter_filter]
    apply List.filter_congr
    intro a _
    have hbe : (a.1 == r.1) = decide (a.1 = r.1) := by
      by_cases he : a.1 = r.1 <;> simp [he]
    rw [hbe]
    simp [keysOf_cons, List.contains_cons, Bool.not_or, Bool.and_comm]

theorem addEntries_ok (g : String → Term → Term) :
    ∀ (l acc : Subst), (keysOf acc ++ keysOf l).Nodup →
      addEntries g l acc = .ok (acc ++ l.map (fun p => (p.1, g p.1 p.2))) := by
  intro l
  induction l with
  | nil =>
    intro acc _
    simp [addEntries]
  | cons p rest ih =>
    intro acc h
    have hd := (List.nodup_append.mp h).2.2
    have hnotin : p.1 ∉ keysOf acc := by
      intro hmem
      exact hd hmem (by simp [keysOf_cons])
    have hany : (acc.any (fun vt => vt.1 == p.1)) = false := by
      rw [List.any_eq_false]
      intro x hx
      simp only [Bool.not_eq_true, beq_eq_false_iff_ne, ne_eq]
      intro he
      exact hnotin (he ▸ mem_keysOf_of_mem hx)
    have hnd2 : (keysOf (acc ++ [(p.1, g p.1 p.2)]) ++ keysOf rest).Nodup := by
      rw [keysOf_append]
      have : (keysOf acc ++ keysOf [(p.1, g p.1 p.2)]) ++ keysOf rest
          = keysOf acc ++ keysOf ((p.1, g p.1 p.2) :: rest) := by
        simp [keysOf_cons, keysOf]
      rw [this]
      simpa [keysOf_cons] using h
    rw [addEntries, addSub]
    simp only [hany, Bool.false_eq_true, if_false]
    rw [ih (acc ++ [(p.1, g p.1 p.2)]) hnd2]
    simp

theorem trivialLoop_sublist (l : Subst) (k : Nat) : (trivialLoop l k).Sublist l := by
  induction l, k using trivialLoop.induct with
  | case1 l k h htriv ih =>
    rw [trivialLoop, dif_pos h, if_pos htriv]
    exact ih.trans (removeSub_sublist l _)
  | case2 l k h htriv ih =>
    rw [trivialLoop, dif_pos h, if_neg htriv]
    exact ih
  | case3 l k h =>
    rw [trivialLoop, dif_neg h]

theorem lastMatchIndex_get (l : Subst) (k : Nat) (h : k < l.length)
    (hnd : (keysOf l).Nodup) : lastMatchIndex l l[k].1 = some k := by
  induction l generalizing k with
  | nil => simp at h
  | cons p rest ih =>
    have hnd2 := by simpa [keysOf_cons, List.nodup_cons] using hnd
    cases k with
    | zero =>
      have hrest : lastMatchIndex rest p.1 = none :=
        (lastMatchIndex_eq_none_iff rest p.1).mpr hnd2.1
      simp [lastMatchIndex, hrest]
    | succ k =>
      have hk : k < rest.length := by simpa using h
      have hr := ih k hk hnd2.2
      simp only [List.getElem_cons_succ]
      rw [lastMatchIndex, hr]


/-- Pair binding a variable to a structurally equal variable, i.e. a pair
the trivial-binding removal loop of `compose` deletes when it visits it
(`v.isEqual(t)` with `v` the pair's variable). -/
def isTrivialPair (p : String × Term) : Bool := varIsEqual p.1 p.2

/-- Side condition: no two adjacent pairs of the list are both trivial.
Under it the skip-after-removal iteration of the trivial-binding loop
behaves like a plain filter (see `trivialLoop_eq_filter`). -/
def noConsecTrivial : List (String × Term) → Bool
  | [] => true
  | [_] => true
  | p :: q :: rest => (!(isTrivialPair p && isTrivialPair q)) && noConsecTrivial (q :: rest)

theorem noConsecTrivial_tail {l : List (String × Term)} (h : noConsecTrivial l = true) :
    noConsecTrivial l.tail = true := by
  cases l with
  | nil => rfl
  | cons p rest =>
    cases rest with
    | nil => rfl
    | cons q rest2 =>
      rw [noConsecTrivial, Bool.and_eq_true] at h
      exact h.2

theorem trivialLoop_eq_filter : ∀ (l : Subst) (k : Nat), (keysOf l).Nodup →
    noConsecTrivial (l.drop k) = true →
    trivialLoop l k = l.take k ++ (l.drop k).filter (fun p => !(isTrivialPair p)) := by
  intro l k
  induction l, k using trivialLoop.induct with
  | case1 l k h htriv ih =>
    intro hnd hc
    have hdrop : l.drop k = l[k] :: l.drop (k + 1) := List.drop_eq_getElem_cons h
    have hrm : removeSub l l[k].1 = l.take k ++ l.drop (k + 1) := by
      rw [removeSub, lastMatchIndex_get l k h hnd]
      exact List.eraseIdx_eq_take_drop_succ l k
    have hlenTake : (l.take k).length = k := List.length_take_of_le (Nat.le_of_lt h)
    have hdropRm : (removeSub l l[k].1).drop (k + 1) = l.drop (k + 2) := by
      rw [hrm, show k + 1 = (l.take k).length + 1 by rw [hlenTake], List.drop_append,
        List.drop_drop, hlenTake]
    have hndRm : (keysOf (removeSub l l[k].1)).Nodup :=
      ((removeSub_sublist l _).map Prod.fst).nodup hnd
    have hcRm : noConsecTrivial ((removeSub l l[k].1).drop (k + 1)) = true := by
      rw [hdropRm]
      have h1 := noConsecTrivial_tail hc
      rw [List.tail_drop] at h1
      have h2 := noConsecTrivial_tail h1
      rwa [List.tail_drop] at h2
    rw [trivialLoop, dif_pos h, if_pos htriv, ih hndRm hcRm]
    have htakeRm : (removeSub l l[k].1).take (k + 1) = l.take k ++ (l.drop (k + 1)).take 1 := by
      rw [hrm, show k + 1 = (l.take k).length + 1 by rw [hlenTake], List.take_append]
    rw [htakeRm, hdropRm]
    have hfk : (l.drop k).filter (fun p => !(isTrivialPair p))
        = (l.drop (k + 1)).filter (fun p => !(isTrivialPair p)) := by
      rw [hdrop, List.filter_cons]
      simp [isTrivialPair, htriv]
    rw [hfk]
    cases hd : l.drop (k + 1) with
    | nil =>
      have h2 : l.drop (k + 2) = [] := by
        have h3 := List.tail_drop l (k + 1)
        rw [hd] at h3
        exact h3.symm
      simp [h2]
    | cons q rest =>
      have hrest : l.drop (k + 2) = rest := by
        have h3 := List.tail_drop l (k + 1)
        rw [hd] at h3
        exact h3.symm
      have hq : isTrivialPair q = false := by
        rw [hdrop, hd, noConsecTrivial, Bool.and_eq_true] at hc
        have htl : isTrivialPair l[k] = true := by simpa [isTrivialPair] using htriv
        simpa [htl] using hc.1
      rw [hrest, List.filter_cons]
      simp [hq]
  | case2 l k h htriv ih =>
    intro hnd hc
    have hdrop : l.drop k = l[k] :: l.drop (k + 1) := List.drop_eq_getElem_cons h
    have hc1 : noConsecTrivial (l.drop (k + 1)) = true := by
      have h1 := noConsecTrivial_tail hc
      rwa [List.tail_drop] at h1
    rw [trivialLoop, dif_pos h, if_neg htriv, ih hnd hc1]
    have hfilter : (l.drop k).filter (fun p => !(isTrivialPair p))
        = l[k] :: (l.drop (k + 1)).filter (fun p => !(isTrivialPair p)) := by
      rw [hdrop, List.filter_cons]
      simp [isTrivialPair, htriv]
    rw [hfilter, List.take_succ, List.getElem?_eq_getElem h, Option.toList_some,
      List.append_assoc, List.singleton_append]
  | case3 l k h =>
    intro _ _
    have hlen : l.length ≤ k := Nat.le_of_not_lt h
    rw [trivialLoop, dif_neg h, List.drop_eq_nil_of_le hlen, List.take_of_length_le hlen]
    simp

theorem keysOf_rewrite (s1 s2 : Subst) :
    keysOf (s1.map (fun p => (p.1, applySub s2 p.2))) = keysOf s1 := by
  simp [keysOf]

theorem cloneSubstitution_ok (s : Subst) (hnd : (keysOf s).Nodup) :
    cloneSubstitution s = .ok s := by
  rw [cloneSubstitution, addEntries_ok (fun _ t => cloneTerm t) s [] (by simpa [keysOf] using hnd)]
  simp [cloneTerm_id]

theorem compose_spec (s1 s2 : Subst) (h1 : (keysOf s1).Nodup) (h2 : (keysOf s2).Nodup) :
    composeSub s1 s2 = .ok (trivialLoop (s1.map (fun p => (p.1, applySub s2 p.2))) 0
      ++ s2.filter (fun p => !((keysOf s1).contains p.1))) := by
  cases s1 with
  | nil =>
    rw [composeSub, if_pos (by rfl), cloneSubstitution_ok s2 h2]
    have htl : trivialLoop ([] : Subst) 0 = [] := by
      rw [trivialLoop, dif_neg (by simp)]
    simp [htl, keysOf]
  | cons q qs =>
    have hA : (keysOf ([] : Subst) ++ keysOf (q :: qs)).Nodup := by simpa [keysOf] using h1
    have hndR : (keysOf ((q :: qs).map (fun p => (p.1, applySub s2 p.2)))).Nodup := by
      rw [keysOf_rewrite]
      exact h1
    have hsubR2 := trivialLoop_sublist ((q :: qs).map (fun p => (p.1, applySub s2 p.2))) 0
    have hndR2 : (keysOf (trivialLoop ((q :: qs).map (fun p => (p.1, applySub s2 p.2))) 0)).Nodup :=
      ((hsubR2.map Prod.fst).nodup) hndR
    have hndS : (keysOf (s2.filter (fun p => !((keysOf (q :: qs)).contains p.1)))).Nodup :=
      keysOf_filter_nodup s2 _ h2
    have hdisj : (keysOf (trivialLoop ((q :: qs).map (fun p => (p.1, applySub s2 p.2))) 0)).Disjoint
        (keysOf (s2.filter (fun p => !((keysOf (q :: qs)).contains p.1)))) := by
      intro x hx1 hx2
      have hx1R : x ∈ keysOf ((q :: qs).map (fun p => (p.1, applySub s2 p.2))) :=
        (hsubR2.map Prod.fst).subset hx1
      rw [keysOf_rewrite] at hx1R
      obtain ⟨p, hpS, hpx⟩ := List.mem_map.mp hx2
      have hpmem := List.mem_filter.mp hpS
      have hnc : p.1 ∉ keysOf (q :: qs) := by
        have := hpmem.2
        simpa using this
      exact hnc (hpx ▸ hx1R)
    have hfinal : (keysOf (trivialLoop ((q :: qs).map (fun p => (p.1, applySub s2 p.2))) 0)
        ++ keysOf (s2.filter (fun p => !((keysOf (q :: qs)).contains p.1)))).Nodup :=
      List.nodup_append.mpr ⟨hndR2, hndS, hdisj⟩
    rw [composeSub, if_neg (by simp),
      addEntries_ok (fun _ t => applySub s2 t) (q :: qs) [] hA,
      cloneSubstitution_ok s2 h2]
    simp only [List.nil_append]
    rw [domainRemove_eq _ s2 h2, keysOf_rewrite,
      addEntries_ok (fun _ t => t)
        (s2.filter (fun p => !((keysOf (q :: qs)).contains p.1)))
        (trivialLoop ((q :: qs).map (fun p => (p.1, applySub s2 p.2))) 0) hfinal]
    simp

theorem applySub_nil : ∀ t, applySub [] t = t := by
  intro t
  cases t <;> simp [applySub, cloneTerm_id]

/-- C1: with f = Symbol("f",1), g = Symbol("g",2), variables x, y, constants
a, b, c, sigma1 = containing only x -> g(y,c) and sigma2 containing only
y -> a, compose(sigma1, sigma2) is the substitution rendering (via
toString) exactly as "\x7bx -> g(a,c), y -> a\x7d", and applying it to f(x)
renders exactly as "f(g(a,c))". -/
theorem claim_C1 :
    composeSub [("x", Term.app ⟨"g", 2⟩ [Term.var "y", Term.const "c"])] [("y", Term.const "a")]
      = .ok [("x", Term.app ⟨"g", 2⟩ [Term.const "a", Term.const "c"]), ("y", Term.const "a")]
    ∧ substToString [("x", Term.app ⟨"g", 2⟩ [Term.const "a", Term.const "c"]), ("y", Term.const "a")]
      = "\x7bx -> g(a,c), y -> a\x7d"
    ∧ termToString (applySub
        [("x", Term.app ⟨"g", 2⟩ [Term.const "a", Term.const "c"]), ("y", Term.const "a")]
        (Term.app ⟨"f", 1⟩ [Term.var "x"]))
      = "f(g(a,c))" := by
  refine ⟨?_, rfl, rfl⟩
  simp [composeSub, addEntries, addSub, applySub, applySubList, cloneTerm, cloneTermList,
    cloneSubstitution, domainRemove, containsSub, removeSub, lastMatchIndex, trivialLoop,
    varIsEqual]

/-- C2 (code evaluation at the failing input): `FuncTerm.isEqual` returns
true for f(a) vs g(a) even though the symbols f/1 and g/1 differ (their own
`Func.isEqual` is false), and returns true for h() vs g(a,b) even though
the argument counts differ; the claim says both comparisons must be false. -/
theorem claim_C2_bug_eval :
    isEqualTerm (Term.app ⟨"f", 1⟩ [Term.const "a"]) (Term.app ⟨"g", 1⟩ [Term.const "a"]) = true
    ∧ funcIsEqual ⟨"f", 1⟩ ⟨"g", 1⟩ = false
    ∧ isEqualTerm (Term.app ⟨"h", 0⟩ []) (Term.app ⟨"g", 2⟩ [Term.const "a", Term.const "b"]) = true :=
  ⟨rfl, rfl, rfl⟩

/-- C3 counterexample: with sigma1 = containing only x -> a and sigma2
containing only the trivial binding y -> y (which `add` accepts),
compose(sigma1, sigma2) contains the pair (y, y) with isEqual(y, y) true,
so compose does yield a trivial binding pair. -/
theorem claim_C3_counterexample :
    composeSub [("x", Term.const "a")] [("y", Term.var "y")]
      = .ok [("x", Term.const "a"), ("y", Term.var "y")]
    ∧ ("y", Term.var "y") ∈ ([("x", Term.const "a"), ("y", Term.var "y")] : Subst)
    ∧ isEqualTerm (Term.var "y") (Term.var "y") = true := by
  refine ⟨?_, by simp, rfl⟩
  simp [composeSub, addEntries, addSub, applySub, applySubList, cloneTerm, cloneTermList,
    cloneSubstitution, domainRemove, containsSub, removeSub, lastMatchIndex, trivialLoop,
    varIsEqual]

/-- C3 amended: compose's trivial-binding elimination runs only over
sigma1's rewritten side; a trivial binding v -> v already present in sigma2
whose variable is outside sigma1's domain is copied unchanged into the
result of compose(sigma1, sigma2). -/
theorem claim_C3_amended (s1 s2 : Subst) (h1 : (keysOf s1).Nodup) (h2 : (keysOf s2).Nodup)
    (v : String) (t : Term) (hmem : (v, t) ∈ s2)
    (htriv : isEqualTerm (Term.var v) t = true) (hout : v ∉ keysOf s1) :
    ∃ r, composeSub s1 s2 = .ok r ∧ (v, t) ∈ r := by
  refine ⟨_, compose_spec s1 s2 h1 h2, ?_⟩
  apply List.mem_append_right
  apply List.mem_filter.mpr
  refine ⟨hmem, ?_⟩
  simpa using hout

theorem claim_C3_witness :
    ((keysOf [("x", Term.const "a")]).Nodup ∧ (keysOf [("y", Term.var "y")]).Nodup
      ∧ ("y", Term.var "y") ∈ ([("y", Term.var "y")] : Subst)
      ∧ isEqualTerm (Term.var "y") (Term.var "y") = true
      ∧ "y" ∉ keysOf [("x", Term.const "a")])
    ∧ ∃ r, composeSub [("x", Term.const "a")] [("y", Term.var "y")] = .ok r
        ∧ ("y", Term.var "y") ∈ r :=
  ⟨⟨by decide, by decide, by decide, rfl, by decide⟩,
    claim_C3_amended [("x", Term.const "a")] [("y", Term.var "y")] (by decide) (by decide)
      "y" (Term.var "y") (by decide) rfl (by decide)⟩

/-- C4: when v is bound (by name) in both sigma1 and sigma2 and both are
valid (unique keys), every binding for v that appears in
compose(sigma1, sigma2) carries sigma2.apply of sigma1's term for v;
sigma2's own binding for v never reaches the result. -/
theorem claim_C4 (s1 s2 : Subst) (h1 : (keysOf s1).Nodup) (h2 : (keysOf s2).Nodup)
    (v : String) (hv1 : v ∈ keysOf s1) (hv2 : v ∈ keysOf s2)
    (r : Subst) (hr : composeSub s1 s2 = .ok r) :
    ∀ p ∈ r, p.1 = v → ∃ t, (v, t) ∈ s1 ∧ p.2 = applySub s2 t := by
  intro p hp hpv
  rw [compose_spec s1 s2 h1 h2] at hr
  injection hr with hr
  rw [← hr] at hp
  rcases List.mem_append.mp hp with hpR | hpS
  · have hpR2 : p ∈ s1.map (fun q => (q.1, applySub s2 q.2)) :=
      (trivialLoop_sublist _ 0).subset hpR
    obtain ⟨q, hq, hqe⟩ := List.mem_map.mp hpR2
    subst hqe
    refine ⟨q.2, ?_, rfl⟩
    rw [← hpv]
    exact hq
  · exfalso
    have hfil := (List.mem_filter.mp hpS).2
    simp at hfil
    exact hfil (hpv ▸ hv1)

theorem claim_C4_witness :
    ((keysOf [("x", Term.var "y")]).Nodup
      ∧ (keysOf [("x", Term.const "a"), ("y", Term.const "b")]).Nodup
      ∧ "x" ∈ keysOf [("x", Term.var "y")]
      ∧ "x" ∈ keysOf [("x", Term.const "a"), ("y", Term.const "b")]
      ∧ ("x", Term.const "b") ∈ ([("x", Term.const "b"), ("y", Term.const "b")] : Subst))
    ∧ ∃ t, ("x", t) ∈ ([("x", Term.var "y")] : Subst)
        ∧ (Term.const "b") = applySub [("x", Term.const "a"), ("y", Term.const "b")] t := by
  have hr : composeSub [("x", Term.var "y")] [("x", Term.const "a"), ("y", Term.const "b")]
      = .ok [("x", Term.const "b"), ("y", Term.const "b")] := by
    simp [composeSub, addEntries, addSub, applySub, applySubList, cloneTerm, cloneTermList,
      cloneSubstitution, domainRemove, containsSub, removeSub, lastMatchIndex, trivialLoop,
      varIsEqual]
  refine ⟨⟨by decide, by decide, by decide, by decide, by decide⟩, ?_⟩
  have h := claim_C4 [("x", Term.var "y")] [("x", Term.const "a"), ("y", Term.const "b")]
    (by decide) (by decide) "x" (by decide) (by decide)
    [("x", Term.const "b"), ("y", Term.const "b")] hr
    ("x", Term.const "b") (by decide) rfl
  exact h

/-- C5 counterexample: with sigma = containing x -> x then y -> y (both
trivial, both accepted by `add`), compose(sigma, emptySubstitution) yields
the substitution containing y -> y, while sigma with its trivial
self-bindings removed is empty: the two differ. -/
theorem claim_C5_counterexample :
    composeSub [("x", Term.var "x"), ("y", Term.var "y")] [] = .ok [("y", Term.var "y")]
    ∧ ([("x", Term.var "x"), ("y", Term.var "y")] : Subst).filter
        (fun p => !(isEqualTerm (Term.var p.1) p.2)) = []
    ∧ ([("y", Term.var "y")] : Subst) ≠ [] := by
  refine ⟨?_, rfl, by decide⟩
  simp [composeSub, addEntries, addSub, applySub, applySubList, cloneTerm, cloneTermList,
    cloneSubstitution, domainRemove, containsSub, removeSub, lastMatchIndex, trivialLoop,
    varIsEqual]

/-- C5 amended: compose(emptySubstitution, sigma) equals sigma exactly, and
compose(sigma, emptySubstitution) equals sigma with its trivial
self-bindings removed PROVIDED no two consecutive bindings of sigma are
both trivial (the removal loop, after deleting a trivial binding, skips
the binding sliding into its place, so the second of two adjacent trivial
bindings survives). -/
theorem claim_C5_amended (s : Subst) (hnd : (keysOf s).Nodup)
    (hc : noConsecTrivial s = true) :
    composeSub [] s = .ok s
    ∧ composeSub s [] = .ok (s.filter (fun p => !(isTrivialPair p))) := by
  constructor
  · rw [composeSub, if_pos (by rfl), cloneSubstitution_ok s hnd]
  · rw [compose_spec s [] hnd (by simp [keysOf])]
    have hmap : s.map (fun p => (p.1, applySub [] p.2)) = s := by
      simp [applySub_nil]
    rw [hmap, trivialLoop_eq_filter s 0 hnd (by simpa using hc)]
    simp

theorem claim_C5_witness :
    ((keysOf [("x", Term.var "x"), ("y", Term.const "b")]).Nodup
      ∧ noConsecTrivial [("x", Term.var "x"), ("y", Term.const "b")] = true)
    ∧ composeSub [] [("x", Term.var "x"), ("y", Term.const "b")]
        = .ok [("x", Term.var "x"), ("y", Term.const "b")]
    ∧ composeSub [("x", Term.var "x"), ("y", Term.const "b")] []
        = .ok (([("x", Term.var "x"), ("y", Term.const "b")] : Subst).filter
            (fun p => !(isTrivialPair p))) :=
  ⟨⟨by decide, rfl⟩,
    claim_C5_amended [("x", Term.var "x"), ("y", Term.const "b")] (by decide) rfl⟩

/-- C6 counterexample: the direct Application construction
`new FuncTerm(f, args)` succeeds for f = Symbol("f",1) applied to an empty
argument list even though 0 differs from the arity 1, because the
`FuncTerm` constructor never compares `args.length` with `func.arity`. -/
theorem claim_C6_counterexample :
    funcTermCtor ⟨"f", 1⟩ [] = .ok (Term.app ⟨"f", 1⟩ [])
    ∧ (([] : List Term).length : Int) ≠ (1 : Int) :=
  ⟨rfl, by decide⟩

/-- C6 amended: only the callable-symbol entry point f(...args) enforces
the arity check: it succeeds exactly when args.length equals the arity
(returning the application of the rebuilt symbol to args), and errors on
any mismatch; the direct Application(symbol, args) construction checks
only that the symbol is a Func and args is an array of Terms, so it
succeeds for every argument count. -/
theorem claim_C6_amended (f : Func) (args : List Term) :
    (funcCall f args = .ok (Term.app (Func.mk f.symbol_name f.arity) args)
      ↔ (args.length : Int) = f.arity)
    ∧ ((args.length : Int) ≠ f.arity → ∃ e, funcCall f args = .error e)
    ∧ funcTermCtor f args = .ok (Term.app f args) := by
  by_cases h : (args.length : Int) = f.arity
  · refine ⟨iff_of_true ?_ h, fun hne => absurd h hne, rfl⟩
    rw [funcCall, if_neg (not_not_intro h)]
  · refine ⟨iff_of_false ?_ h, fun _ => ?_, rfl⟩
    · rw [funcCall, if_pos h]
      exact fun he => Except.noConfusion he
    · rw [funcCall, if_pos h]
      exact ⟨_, rfl⟩

theorem claim_C6_witness :
    ((funcCall ⟨"f", 1⟩ [Term.const "a"]
        = .ok (Term.app (Func.mk "f" 1) [Term.const "a"])
      ↔ (([Term.const "a"] : List Term).length : Int) = (1 : Int))
      ∧ ((([Term.const "a"] : List Term).length : Int) ≠ (1 : Int) →
          ∃ e, funcCall ⟨"f", 1⟩ [Term.const "a"] = .error e)
      ∧ funcTermCtor ⟨"f", 1⟩ [Term.const "a"]
          = .ok (Term.app ⟨"f", 1⟩ [Term.const "a"]))
    ∧ (([Term.const "a"] : List Term).length : Int) = (1 : Int) :=
  ⟨claim_C6_amended ⟨"f", 1⟩ [Term.const "a"], by decide⟩

/-- C7 counterexample: Symbol("f", -1) succeeds: the Func constructor
checks only that the name is a string and the arity an integer, so the
negative integer arity -1 is accepted rather than rejected. -/
theorem claim_C7_counterexample :
    funcCtor "f" (-1) = .ok ⟨"f", -1⟩ :=
  rfl

/-- C7 amended: Symbol(name, arity) fails only when the name is not a
string or the arity is not an integer (conditions absorbed by the types
here), so it succeeds for every integer arity including negative ones; a
symbol with negative arity can then never be applied successfully, since
no argument list has negative length. -/
theorem claim_C7_amended (name : String) (arity : Int) :
    funcCtor name arity = .ok ⟨name, arity⟩
    ∧ (arity < 0 → ∀ args : List Term, ∃ e, funcCall ⟨name, arity⟩ args = .error e) := by
  refine ⟨rfl, fun hneg args => ?_⟩
  have hcond : ((args.length : Int) ≠ arity) := by
    have hge : (0 : Int) ≤ (args.length : Int) := Int.natCast_nonneg _
    omega
  rw [funcCall, if_pos hcond]
  exact ⟨_, rfl⟩

theorem claim_C7_witness :
    funcCtor "f" (-2) = .ok ⟨"f", -2⟩
    ∧ ((-2 : Int) < 0 ∧ ∃ e, funcCall ⟨"f", -2⟩ [] = .error e) :=
  ⟨(claim_C7_amended "f" (-2)).1,
    by decide, (claim_C7_amended "f" (-2)).2 (by decide) []⟩

/-- C9: for valid substitutions (unique keys each, as add guarantees), no
internal add performed inside compose ever sees an already-present key:
compose returns ok rather than propagating add's duplicate-key error. -/
theorem claim_C9 (s1 s2 : Subst) (h1 : (keysOf s1).Nodup) (h2 : (keysOf s2).Nodup) :
    ∃ r, composeSub s1 s2 = .ok r :=
  ⟨_, compose_spec s1 s2 h1 h2⟩

theorem claim_C9_witness :
    ((keysOf [("x", Term.const "a"), ("y", Term.var "x")]).Nodup
      ∧ (keysOf [("x", Term.var "y"), ("z", Term.const "b")]).Nodup)
    ∧ ∃ r, composeSub [("x", Term.const "a"), ("y", Term.var "x")]
        [("x", Term.var "y"), ("z", Term.const "b")] = .ok r :=
  ⟨⟨by decide, by decide⟩,
    claim_C9 [("x", Term.const "a"), ("y", Term.var "x")]
      [("x", Term.var "y"), ("z", Term.const "b")] (by decide) (by decide)⟩

/-- C10: add accepts a trivial self-binding: for any substitution not
already containing v, add(v, v) succeeds and appends the pair (v, v), even
though the bound term is structurally equal to the variable; add checks
only key uniqueness (type checks being absorbed by the embedding). -/
theorem claim_C10 (s : Subst) (v : String) (h : containsSub s v = false) :
    addSub s v (Term.var v) = .ok (s ++ [(v, Term.var v)]) := by
  rw [containsSub] at h
  rw [addSub]
  simp [h]

theorem claim_C10_witness :
    containsSub [("y", Term.const "b")] "x" = false
    ∧ addSub [("y", Term.const "b")] "x" (Term.var "x")
        = .ok [("y", Term.const "b"), ("x", Term.var "x")] :=
  ⟨rfl, claim_C10 [("y", Term.const "b")] "x" rfl⟩
